import Mathlib

/-!
# Verification of the Dictionary-app repository

Shallow embedding of the two source files of the repository:

* `scripts/build-wordnet-json.cjs` — the offline Lexicon compiler that
  parses WordNet-style `data.<pos>` files into one JSON dictionary object;
* `src/App.jsx` — the lookup client (query operation, bounded query
  history with immediate-duplicate suppression, recall navigation).

JavaScript strings are modelled as `List Char` (`JStr`).  JS string
operations used by the sources (`trim`, `toLowerCase`, `split(/\s+/)`,
`split("\n")`, `indexOf(" | ")`/`slice`, `replace(/_/g, " ")`,
`parseInt(-, 16)`) are each given an executable model below.
`toLowerCase` is modelled on the ASCII letter range, which is the range
relevant to the WordNet data handled by the program.  JS objects
(the compiled dictionary and its per-word entries) are modelled as
insertion-ordered association lists, matching JS property semantics of
update-in-place / append-if-new.
-/

/-- A JavaScript string, modelled as a list of characters. -/
abbrev JStr := List Char

/-- Model of `String.prototype.toLowerCase` on the ASCII range:
`A`–`Z` map to `a`–`z` (code point + 32), all other characters are kept. -/
def jsToLower (s : JStr) : JStr := s.map Char.toLower

/-- Model of `String.prototype.trim`: drop whitespace from both ends. -/
def jsTrim (s : JStr) : JStr :=
  ((s.dropWhile Char.isWhitespace).reverse.dropWhile Char.isWhitespace).reverse

/-- Auxiliary state machine for `split(/\s+/)`: `cur` is the token being
accumulated (reversed), `afterWs` records that we are inside a whitespace
run whose first character already ended the previous token. -/
def splitWsAux : List Char → List Char → Bool → List (List Char)
  | [], cur, _ => [cur.reverse]
  | c :: cs, cur, afterWs =>
    if c.isWhitespace then
      if afterWs then splitWsAux cs cur true
      else cur.reverse :: splitWsAux cs [] true
    else splitWsAux cs (c :: cur) false

/-- Model of `str.split(/\s+/)`: split at maximal whitespace runs,
keeping the empty boundary tokens JS produces (`" a".split(/\s+/)` is
`["", "a"]`, `"a ".split(/\s+/)` is `["a", ""]`). -/
def splitWs (s : JStr) : List JStr := splitWsAux s [] false

/-- Model of `str.split("\n")`: split at every newline, keeping empty
pieces. -/
def splitLines : JStr → List JStr
  | [] => [[]]
  | c :: cs =>
    if c = '\n' then [] :: splitLines cs
    else
      match splitLines cs with
      | t :: rest => (c :: t) :: rest
      | [] => [[c]]

/-- Value of a hexadecimal digit character, `none` for non-digits. -/
def hexVal (c : Char) : Option Nat :=
  if '0' ≤ c ∧ c ≤ '9' then some (c.toNat - 48)
  else if 'a' ≤ c ∧ c ≤ 'f' then some (c.toNat - 87)
  else if 'A' ≤ c ∧ c ≤ 'F' then some (c.toNat - 55)
  else none

/-- Longest prefix of hexadecimal digits, as digit values. -/
def hexDigits : List Char → List Nat
  | [] => []
  | c :: cs =>
    match hexVal c with
    | some v => v :: hexDigits cs
    | none => []

/-- Model of `parseInt(s, 16)`: skip leading whitespace, optional sign,
optional `0x`/`0X` prefix, then the longest prefix of hex digits;
`none` models the `NaN` result when no digit is found. -/
def parseIntHex (s : JStr) : Option Int :=
  let s1 := s.dropWhile Char.isWhitespace
  let sgn : Int := match s1 with
    | '-' :: _ => -1
    | _ => 1
  let s2 : List Char := match s1 with
    | '-' :: t => t
    | '+' :: t => t
    | t => t
  let s3 : List Char := match s2 with
    | '0' :: x :: t => if x = 'x' ∨ x = 'X' then t else s2
    | _ => s2
  let ds := hexDigits s3
  if ds = [] then none
  else some (sgn * (ds.foldl (fun a d => 16 * a + d) 0 : Nat))

/-- Model of `w.replace(/_/g, " ")` on one character. -/
def underscoreToSpace (c : Char) : Char := if c = '_' then ' ' else c

/-- One sense record of the compiled dictionary:
`{ definition: string, synonyms: string[] }`. -/
structure Sense where
  definition : JStr
  synonyms : List JStr
deriving DecidableEq, Repr

/-- A JS object entry for one word: part-of-speech key to sense array,
as an insertion-ordered association list. -/
abbrev Entry := List (JStr × List Sense)

/-- The compiled dictionary object: word key to entry, insertion-ordered. -/
abbrev Dict := List (JStr × Entry)

/-- Model of JS property read `obj[k]`: the value at the first (unique)
occurrence of the key, `none` when the key is absent. -/
def alGet {α : Type} (l : List (JStr × α)) (k : JStr) : Option α :=
  match l with
  | [] => none
  | kv :: t => if kv.1 = k then some kv.2 else alGet t k

/-- Model of JS property write `obj[k] = v`: update in place if the key
exists, otherwise append the new key (JS insertion order). -/
def alSet {α : Type} (l : List (JStr × α)) (k : JStr) (v : α) : List (JStr × α) :=
  match l with
  | [] => [(k, v)]
  | kv :: t => if kv.1 = k then (k, v) :: t else kv :: alSet t k v

/-- The sense array stored at word `k`, part of speech `p` (empty when
the word or the part of speech is absent). -/
def sensesAt (d : Dict) (k p : JStr) : List Sense :=
  (alGet ((alGet d k).getD []) p).getD []

/-- The top-level keys of the dictionary object. -/
def dictKeys (d : Dict) : List JStr := d.map Prod.fst

/-- Lines 111–119 of `build-wordnet-json.cjs`:
`if (!dictionary[key]) dictionary[key] = {};`
`if (!dictionary[key][posKey]) dictionary[key][posKey] = [];`
`dictionary[key][posKey].push(sense)`. -/
def insertSense (d : Dict) (key posKey : JStr) (s : Sense) : Dict :=
  let entry := (alGet d key).getD []
  let ss := (alGet entry posKey).getD []
  alSet d key (alSet entry posKey (ss ++ [s]))

/-- Loop body of `for (const w of words)` in `parseDataFile`: the key is
the lowercased word, the synonyms are the other words of the record,
excluding `w` itself by case-insensitive comparison
(`words.filter(x => x.toLowerCase() !== w.toLowerCase())`). -/
def insertWord (posKey gloss : JStr) (allWords : List JStr) (d : Dict) (w : JStr) : Dict :=
  insertSense d (jsToLower w) posKey
    ⟨gloss, allWords.filter (fun x => !(jsToLower x == jsToLower w))⟩

/-- `words` extraction of `parseDataFile`: for `i < wcnt`, take token
`rest[i*2]`; missing or empty tokens are skipped (`if (w)`), underscores
become spaces. -/
def extractWords (rest : List JStr) (wcnt : Nat) : List JStr :=
  (List.range wcnt).filterMap (fun i =>
    match rest.getD (2 * i) [] with
    | [] => none
    | w => some (w.map underscoreToSpace))

/-- Gloss search of `parseDataFile`: `line.indexOf(" | ")` and
`line.slice(pipeIndex + 3)`; `none` models `pipeIndex < 0`. -/
def findGloss : List Char → Option (List Char)
  | [] => none
  | c :: cs =>
    if c = ' ' ∧ cs.take 2 = ['|', ' '] then some (cs.drop 2)
    else findGloss cs

/-- The gloss of a line: text after the first `" | "`, trimmed; the empty
string when there is no pipe (`pipeIndex >= 0 ? ... : ""`). -/
def glossOf (line : JStr) : JStr :=
  match findGloss line with
  | some g => jsTrim g
  | none => []

/-- `ss_type` to output part-of-speech key (`n`/`v`/`a`/`s`/`r`);
`none` models the `posKey === null` skip. -/
def posKeyOf (ss : JStr) : Option JStr :=
  if ss = ['n'] then some ("noun".toList)
  else if ss = ['v'] then some ("verb".toList)
  else if ss = ['a'] ∨ ss = ['s'] then some ("adj".toList)
  else if ss = ['r'] then some ("adv".toList)
  else none

/-- Body of the `for (const line of lines)` loop of `parseDataFile`
(lines 85–121 of `build-wordnet-json.cjs`), as a transform of the
accumulated dictionary. -/
def processLine (d : Dict) (line : JStr) : Dict :=
  if line = [] ∨ line.take 2 = [' ', ' '] then d
  else
    let parts := splitWs line
    let ss_type := parts.getD 2 []
    let w_cnt_hex := parts.getD 3 []
    let rest := parts.drop 4
    match parseIntHex w_cnt_hex with
    | none => d
    | some wcnt =>
      if wcnt ≤ 0 then d
      else
        let words := extractWords rest wcnt.toNat
        let gloss := glossOf line
        match posKeyOf ss_type with
        | none => d
        | some posKey => words.foldl (insertWord posKey gloss words) d

/-- `parseDataFile` (lines 81–122): the file content is `none` when
`fs.existsSync` fails, in which case the function returns at once —
without logging anything.  The second component collects `console.warn`
output, of which this function produces none. -/
def parseDataFile (fileOpt : Option JStr) (d : Dict) : Dict × List JStr :=
  match fileOpt with
  | none => (d, [])
  | some txt => ((splitLines txt).foldl processLine d, [])

/-- `parseIndexFile` (lines 39–59): dead code, never invoked by the
script (line 124 only calls `parseDataFile`).  It is the only place with
a `console.warn` for a missing file; its dictionary effect is to create
empty key/pos slots. -/
def parseIndexFile (pos : JStr) (fileOpt : Option JStr) (d : Dict) : Dict × List JStr :=
  match fileOpt with
  | none => (d, [("Missing index file for ".toList) ++ pos])
  | some txt =>
    ((splitLines txt).foldl
      (fun acc line =>
        if line = [] ∨ line.take 2 = [' ', ' '] then acc
        else
          match (splitWs line).getD 0 [] with
          | [] => acc
          | head =>
            let key := jsToLower head
            let entry := (alGet acc key).getD []
            let ss := (alGet entry pos).getD []
            alSet acc key (alSet entry pos ss))
      d, [])

/-- The four category data files offered to the compiler run; `none`
models a file that `fs.existsSync` does not find. -/
structure Files where
  noun : Option JStr
  verb : Option JStr
  adj : Option JStr
  adv : Option JStr

/-- Line 124: `["noun", "verb", "adj", "adv"].forEach((p) => parseDataFile(p))`,
with the accumulated dictionary and all warning output. -/
def buildDictionary (fs : Files) : Dict × List JStr :=
  let r1 := parseDataFile fs.noun []
  let r2 := parseDataFile fs.verb r1.1
  let r3 := parseDataFile fs.adj r2.1
  let r4 := parseDataFile fs.adv r3.1
  (r4.1, r1.2 ++ r2.2 ++ r3.2 ++ r4.2)

/-!
## Lookup client (`src/App.jsx`)

The client state collects the React state hooks and refs of `App`:
`dictionary`, `word`, `result`, `error`, `history` (with its mirror ref)
and the recall cursor `historyIndex`.  The compiled artifact the client
loads has the shape of the compiler's `Dict`.
-/

/-- The client state: `useState`/`useRef` cells of `App`. -/
structure ClientState where
  dictionary : Option Dict
  word : JStr
  result : Option Entry
  error : JStr
  history : List JStr
  historyIndex : Int
deriving DecidableEq

/-- `"Please enter a word."` -/
def msgEnterWord : JStr := "Please enter a word.".toList

/-- `"Dictionary not loaded yet."` -/
def msgNotLoaded : JStr := "Dictionary not loaded yet.".toList

/-- `"No match."` -/
def msgNoMatch : JStr := "No match.".toList

/-- History transform of `pushHistory` (lines 101–108 of `App.jsx`):
append unless equal to the last entry, then `shift()` when the length
exceeds 100. -/
def pushList (h : List JStr) (term : JStr) : List JStr :=
  if h = [] ∨ h.getLast? ≠ some term then
    let h2 := h ++ [term]
    if 100 < h2.length then h2.drop 1 else h2
  else h

/-- `pushHistory(term)` (lines 99–110): empty terms are rejected, the
history gets the `pushList` transform, and the recall cursor is reset to
`-1` in every non-rejected call. -/
def pushHistory (st : ClientState) (term : JStr) : ClientState :=
  if term = [] then st
  else { st with history := pushList st.history term, historyIndex := -1 }

/-- Model of the JS read `arr[idx] ?? ""` with an `Int` index. -/
def jsIndex (l : List JStr) (i : Int) : JStr :=
  if 0 ≤ i then (l.get? i.toNat).getD [] else []

/-- `doSearch(w)` (lines 74–97): trim/lowercase the input (the argument
when given, otherwise the query field), reject the empty term with a
validation error, reject when the dictionary is not loaded, otherwise
look the term up and record it in the history in both the no-match and
the match case. -/
def doSearch (st : ClientState) (wArg : Option JStr) : ClientState :=
  let input := wArg.getD st.word
  let term := jsToLower (jsTrim input)
  if term = [] then { st with error := msgEnterWord, result := none }
  else
    match st.dictionary with
    | none => { st with error := msgNotLoaded }
    | some d =>
      match alGet d term with
      | none => pushHistory { st with error := msgNoMatch, result := none } term
      | some entry => pushHistory { st with error := [], result := some entry } term

/-- `ArrowUp` branch of `onKey` (lines 48–56): advance the cursor toward
older entries unless already at the oldest, then repopulate the query
field; no search runs. -/
def onArrowUp (st : ClientState) : ClientState :=
  if st.history.length = 0 then st
  else
    let i := if st.historyIndex < (st.history.length : Int) - 1
      then st.historyIndex + 1 else st.historyIndex
    { st with historyIndex := i,
              word := jsIndex st.history ((st.history.length : Int) - 1 - i) }

/-- `ArrowDown` branch of `onKey` (lines 57–67): step the cursor back
toward newer entries, or reset it and clear the query field when it
would move past the newest entry; no search runs. -/
def onArrowDown (st : ClientState) : ClientState :=
  if st.history.length = 0 then st
  else if 0 < st.historyIndex then
    let i := st.historyIndex - 1
    { st with historyIndex := i,
              word := jsIndex st.history ((st.history.length : Int) - 1 - i) }
  else { st with historyIndex := -1, word := [] }

/-- `Escape` branch of `onKey` (lines 45–47): clear query field and
result. -/
def onEscape (st : ClientState) : ClientState :=
  { st with word := [], result := none }

/-- `onClickSynonym(syn)` (lines 112–117): set the query field to the
synonym and re-run the query pipeline with it. -/
def onClickSynonym (st : ClientState) (syn : JStr) : ClientState :=
  doSearch { st with word := syn } (some syn)

/-!
## Shared lemmas
-/

/-- Reading through a JS property write: the written key returns the new
value, other keys are unaffected. -/
theorem alGet_alSet {α : Type} (l : List (JStr × α)) (k k' : JStr) (v : α) :
    alGet (alSet l k v) k' = if k' = k then some v else alGet l k' := by
  induction l with
  | nil =>
    simp only [alSet, alGet]
    by_cases h : k' = k
    · subst h; simp
    · rw [if_neg (fun hc => h hc.symm), if_neg h]
  | cons kv t ih =>
    by_cases hk : kv.1 = k
    · simp only [alSet, if_pos hk, alGet]
      by_cases h : k' = k
      · subst h; simp
      · rw [if_neg (fun hc => h hc.symm), if_neg h,
          if_neg (fun hc => h ((hk.symm.trans hc).symm))]
    · simp only [alSet, if_neg hk, alGet]
      by_cases hkv : kv.1 = k'
      · rw [if_pos hkv, if_pos hkv, if_neg (fun hc => hk (hkv.trans hc))]
      · rw [if_neg hkv, if_neg hkv, ih]

/-- `sensesAt` after `insertSense`: the targeted word/pos slot gets the
record appended, all other slots are unchanged. -/
theorem sensesAt_insertSense (d : Dict) (key posKey k p : JStr) (s : Sense) :
    sensesAt (insertSense d key posKey s) k p =
      if k = key ∧ p = posKey then sensesAt d k p ++ [s] else sensesAt d k p := by
  unfold insertSense sensesAt
  rw [alGet_alSet]
  by_cases hk : k = key
  · subst hk
    rw [if_pos rfl, Option.getD_some, alGet_alSet]
    by_cases hp : p = posKey
    · subst hp; rw [if_pos rfl, if_pos ⟨rfl, rfl⟩, Option.getD_some]
    · rw [if_neg hp, if_neg (fun hc => hp hc.2)]
  · rw [if_neg hk, if_neg (fun hc => hk hc.1)]

/-!
## C8 — zero or unparseable word count skips the line
-/

/-- C8: for every data-file line whose word-count field (the fourth
whitespace token) parses to `0` in base 16 or does not parse at all, the
compiler's per-line transform leaves the dictionary exactly as it was:
the line is a no-op, contributing zero entries and raising no error. -/
theorem claim8_zero_wordcount_noop (d : Dict) (line : JStr)
    (h : parseIntHex ((splitWs line).getD 3 []) = none ∨
         parseIntHex ((splitWs line).getD 3 []) = some 0) :
    processLine d line = d := by
  unfold processLine
  split
  · rfl
  · rcases h with h | h <;> rw [List.getD_eq_getElem?_getD] at h <;> simp [h]

/-- Witness for C8: the concrete record with word count `00` hits the
hypothesis of `claim8_zero_wordcount_noop` and contributes nothing. -/
theorem claim8_witness :
    processLine [] (("00000001 15 n 00 000 | an empty synset".toList)) = [] :=
  claim8_zero_wordcount_noop [] (("00000001 15 n 00 000 | an empty synset".toList))
    (Or.inr (by decide))

/-!
## C2 — empty query input
-/

/-- A client state with a displayed result and a non-trivial history,
used to exercise the empty-query branch. -/
def cexClientState : ClientState :=
  { dictionary := some [], word := ("  ".toList), result := some [],
    error := [], history := [("prior".toList)], historyIndex := -1 }

/-- C2 counterexample: the claim says an empty (after trimming) query
input "causes no state change", but `doSearch` also clears the displayed
result (`setResult(null)`), so a state with a visible result does
change: its `result` component moves from `some` to `none`. -/
theorem claim2_counterexample :
    jsTrim cexClientState.word = [] ∧
    (doSearch cexClientState none).result ≠ cexClientState.result ∧
    (doSearch cexClientState none).history = cexClientState.history := by
  decide

/-- C2 (amended): a query input that is empty after trimming yields the
empty-input validation error and clears the displayed result; the query
history, the recall cursor, the query field and the loaded dictionary
are untouched. -/
theorem claim2_empty_query_validation (st : ClientState) (wArg : Option JStr)
    (h : jsTrim (wArg.getD st.word) = []) :
    doSearch st wArg = { st with error := msgEnterWord, result := none } := by
  unfold doSearch
  have hterm : jsToLower (jsTrim (wArg.getD st.word)) = [] := by
    rw [h]; rfl
  simp [hterm]

/-- Witness for C2's amended theorem at a concrete state: the error is
set, the result cleared, everything else (history included) unchanged. -/
theorem claim2_witness :
    doSearch cexClientState none =
      { cexClientState with error := msgEnterWord, result := none } :=
  claim2_empty_query_validation cexClientState none (by decide)

/-!
## C3 — recall navigation over history [A, B, C]
-/

/-- C3: starting from a fresh cursor (`historyIndex = -1`) over history
`[A, B, C]`, the first backward step puts `C` in the query field, the
second puts `B`; one forward step restores `C`; one further forward step
clears the query field; and none of the four steps touches the history,
the displayed result, or the error (no search is executed). -/
theorem claim3_recall_navigation (st : ClientState) (A B C : JStr)
    (hh : st.history = [A, B, C]) (hi : st.historyIndex = -1) :
    (onArrowUp st).word = C ∧
    (onArrowUp (onArrowUp st)).word = B ∧
    (onArrowDown (onArrowUp (onArrowUp st))).word = C ∧
    (onArrowDown (onArrowDown (onArrowUp (onArrowUp st)))).word = [] ∧
    ((onArrowDown (onArrowDown (onArrowUp (onArrowUp st)))).history = st.history ∧
     (onArrowDown (onArrowDown (onArrowUp (onArrowUp st)))).result = st.result ∧
     (onArrowDown (onArrowDown (onArrowUp (onArrowUp st)))).error = st.error) := by
  have h1 : onArrowUp st =
      { st with historyIndex := 0, word := C } := by
    unfold onArrowUp
    rw [hh, hi]
    norm_num [jsIndex]
    rfl
  have h2 : onArrowUp { st with historyIndex := 0, word := C } =
      { st with historyIndex := 1, word := B } := by
    unfold onArrowUp
    simp only [hh]
    norm_num [jsIndex]
  have h3 : onArrowDown { st with historyIndex := 1, word := B } =
      { st with historyIndex := 0, word := C } := by
    unfold onArrowDown
    simp only [hh]
    norm_num [jsIndex]
    rfl
  have h4 : onArrowDown { st with historyIndex := 0, word := C } =
      { st with historyIndex := -1, word := [] } := by
    unfold onArrowDown
    simp only [hh]
    norm_num [jsIndex]
  rw [h1, h2, h3, h4]
  simp

/-- Witness for C3 at a concrete state and history. -/
theorem claim3_witness :
    (onArrowUp
      { dictionary := none, word := [], result := none, error := [],
        history := [("alpha".toList), ("beta".toList), ("gamma".toList)],
        historyIndex := -1 }).word = ("gamma".toList) :=
  (claim3_recall_navigation _ (("alpha".toList)) (("beta".toList)) (("gamma".toList))
    rfl rfl).1

/-!
## Client helper lemmas
-/

/-- `doSearch` never changes the loaded dictionary. -/
theorem doSearch_dictionary (st : ClientState) (wArg : Option JStr) :
    (doSearch st wArg).dictionary = st.dictionary := by
  unfold doSearch pushHistory
  by_cases h1 : jsToLower (jsTrim (wArg.getD st.word)) = []
  · simp [h1]
  · cases hd : st.dictionary with
    | none => simp [h1, hd]
    | some d =>
      cases hg : alGet d (jsToLower (jsTrim (wArg.getD st.word))) <;>
        simp [h1, hd, hg]

/-- For a loaded dictionary and a non-empty normalized term, the history
after `doSearch` is the `pushList` transform of the old history at the
normalized term — in the match case and in the no-match case alike. -/
theorem doSearch_history (st : ClientState) (wArg : Option JStr) (d : Dict)
    (hd : st.dictionary = some d)
    (hterm : jsToLower (jsTrim (wArg.getD st.word)) ≠ []) :
    (doSearch st wArg).history =
      pushList st.history (jsToLower (jsTrim (wArg.getD st.word))) := by
  unfold doSearch pushHistory
  cases halget : alGet d (jsToLower (jsTrim (wArg.getD st.word))) <;>
    simp [hd, halget, hterm]

/-- `pushList` genuinely appends when the term differs from the newest
entry and the history is not full. -/
theorem pushList_append (h : List JStr) (term : JStr)
    (hne : h.getLast? ≠ some term) (hlen : h.length < 100) :
    pushList h term = h ++ [term] := by
  have hlt : ¬ 100 < (h ++ [term]).length := by
    simp only [List.length_append, List.length_cons, List.length_nil]
    omega
  unfold pushList
  rw [if_pos (Or.inr hne), if_neg hlt]

/-!
## C4 — immediate-duplicate suppression only
-/

/-- C4: pushing a term equal to the newest history entry leaves the
history unchanged; a term that differs from the newest entry is appended
even if it occurs earlier in the history; and querying `A`, then `B`,
then `A` again from an empty history yields history `[A, B, A]`. -/
theorem claim4_immediate_dedup_only (st st0 : ClientState) (term A B : JStr)
    (d : Dict)
    (hA : jsToLower (jsTrim A) = A) (hB : jsToLower (jsTrim B) = B)
    (hAne : A ≠ []) (hBne : B ≠ []) (hAB : A ≠ B)
    (hd : st0.dictionary = some d) (hh0 : st0.history = []) :
    (st.history.getLast? = some term → (pushHistory st term).history = st.history) ∧
    (term ≠ [] → st.history.getLast? ≠ some term → st.history.length < 100 →
      (pushHistory st term).history = st.history ++ [term]) ∧
    (doSearch (doSearch (doSearch st0 (some A)) (some B)) (some A)).history
      = [A, B, A] := by
  refine ⟨?_, ?_, ?_⟩
  · intro hlast
    have hne : st.history ≠ [] := by
      intro e; rw [e] at hlast; exact Option.noConfusion hlast
    unfold pushHistory
    split
    · rfl
    · simp only
      unfold pushList
      rw [if_neg (by push_neg; exact ⟨hne, by rw [hlast]⟩)]
  · intro ht hlast hlen
    unfold pushHistory
    rw [if_neg ht]
    simp only
    exact pushList_append _ _ hlast hlen
  · have nA : jsToLower (jsTrim A) ≠ [] := by rw [hA]; exact hAne
    have nB : jsToLower (jsTrim B) ≠ [] := by rw [hB]; exact hBne
    have e1 : (doSearch st0 (some A)).history = [A] := by
      rw [doSearch_history st0 (some A) d hd (by simpa using nA)]
      simp only [Option.getD_some, hA, hh0]
      rw [pushList_append _ _ (by simp) (by simp)]
      rfl
    have d1 : (doSearch st0 (some A)).dictionary = some d := by
      rw [doSearch_dictionary, hd]
    have e2 : (doSearch (doSearch st0 (some A)) (some B)).history = [A, B] := by
      rw [doSearch_history _ (some B) d d1 (by simpa using nB)]
      simp only [Option.getD_some, hB, e1]
      rw [pushList_append _ _ (by simpa using hAB) (by simp)]
      rfl
    have d2 : (doSearch (doSearch st0 (some A)) (some B)).dictionary = some d := by
      rw [doSearch_dictionary, d1]
    rw [doSearch_history _ (some A) d d2 (by simpa using nA)]
    simp only [Option.getD_some, hA, e2]
    rw [pushList_append _ _ (by simpa using Ne.symm hAB) (by simp)]
    rfl

/-- Witness for C4 at concrete states and terms. -/
theorem claim4_witness :
    (doSearch (doSearch (doSearch
      { dictionary := some [], word := [], result := none, error := [],
        history := [], historyIndex := -1 }
      (some ("aa".toList))) (some ("bb".toList))) (some ("aa".toList))).history
      = [("aa".toList), ("bb".toList), ("aa".toList)] :=
  (claim4_immediate_dedup_only
    { dictionary := some [], word := [], result := none, error := [],
      history := [], historyIndex := -1 }
    { dictionary := some [], word := [], result := none, error := [],
      history := [], historyIndex := -1 }
    [] (("aa".toList)) (("bb".toList)) []
    (by decide) (by decide) (by decide) (by decide) (by decide) rfl rfl).2.2

/-!
## C5 — history stays bounded at 100, FIFO eviction when full
-/

/-- One `pushHistory` keeps the 100-entry bound. -/
theorem pushList_length_le (h : List JStr) (term : JStr) (hb : h.length ≤ 100) :
    (pushList h term).length ≤ 100 := by
  unfold pushList
  split
  · show (if 100 < (h ++ [term]).length then
        List.drop 1 (h ++ [term]) else h ++ [term]).length ≤ 100
    split
    · simp only [List.length_drop, List.length_append, List.length_cons,
        List.length_nil]
      omega
    · next hlt =>
      simp only [List.length_append, List.length_cons, List.length_nil] at hlt ⊢
      omega
  · exact hb

/-- Any sequence of `pushHistory` calls keeps the 100-entry bound. -/
theorem foldl_pushHistory_le (terms : List JStr) :
    ∀ st : ClientState, st.history.length ≤ 100 →
      (terms.foldl pushHistory st).history.length ≤ 100 := by
  induction terms with
  | nil => intro st hb; exact hb
  | cons t ts ih =>
    intro st hb
    refine ih _ ?_
    unfold pushHistory
    split
    · exact hb
    · exact pushList_length_le _ _ hb

/-- C5: starting from any state within the bound (in particular the
empty initial history), every sequence of history pushes keeps at most
100 entries; and a non-suppressed push onto a full history of 100
entries appends the new term while evicting the oldest entry. -/
theorem claim5_bounded_history (terms : List JStr) (st : ClientState)
    (hb : st.history.length ≤ 100) :
    (terms.foldl pushHistory st).history.length ≤ 100 ∧
    (∀ term, term ≠ [] → st.history.length = 100 →
      st.history.getLast? ≠ some term →
      (pushHistory st term).history = st.history.drop 1 ++ [term]) := by
  refine ⟨foldl_pushHistory_le terms st hb, ?_⟩
  intro term ht h100 hlast
  unfold pushHistory
  rw [if_neg ht]
  simp only
  unfold pushList
  rw [if_pos (Or.inr hlast),
    if_pos (by simp only [List.length_append, List.length_cons,
      List.length_nil, h100]; omega),
    List.drop_append_of_le_length (by omega)]

/-- Witness for C5: pushing a fresh term onto a concrete full history of
100 entries gives 100 entries again, with the oldest evicted. -/
theorem claim5_witness :
    ((List.replicate 3 ("x".toList)).foldl pushHistory
      { dictionary := none, word := [], result := none, error := [],
        history := [], historyIndex := -1 }).history.length ≤ 100 ∧
    (pushHistory
      { dictionary := none, word := [], result := none, error := [],
        history := List.replicate 100 ("old".toList), historyIndex := -1 }
      ("new".toList)).history =
      List.replicate 99 ("old".toList) ++ [("new".toList)] := by
  constructor
  · exact (claim5_bounded_history (List.replicate 3 ("x".toList))
      { dictionary := none, word := [], result := none, error := [],
        history := [], historyIndex := -1 } (by decide)).1
  · have h := (claim5_bounded_history []
      { dictionary := none, word := [], result := none, error := [],
        history := List.replicate 100 ("old".toList), historyIndex := -1 }
      (by simp)).2 (("new".toList)) (by decide) (by simp) (by decide)
    simpa using h

/-!
## C7 — no-match queries are recorded in history
-/

/-- C7: a non-empty trimmed/lowercased query term with no dictionary
entry produces the "no match" result state (`No match.` error, cleared
result) rather than aborting, and the term is still pushed onto the
query history with the usual immediate-duplicate suppression
(`pushList`); the recall cursor is reset. -/
theorem claim7_no_match_still_recorded (st : ClientState) (wArg : Option JStr)
    (d : Dict)
    (hd : st.dictionary = some d)
    (hterm : jsToLower (jsTrim (wArg.getD st.word)) ≠ [])
    (hmiss : alGet d (jsToLower (jsTrim (wArg.getD st.word))) = none) :
    doSearch st wArg =
      { st with error := msgNoMatch, result := none,
                history := pushList st.history (jsToLower (jsTrim (wArg.getD st.word))),
                historyIndex := -1 } := by
  unfold doSearch pushHistory
  simp [hd, hmiss, hterm]

/-- Witness for C7 at a concrete state: querying a word absent from the
loaded dictionary records it in history and shows "No match.". -/
theorem claim7_witness :
    doSearch
      { dictionary := some [(("cat".toList), [])], word := ("Dog ".toList),
        result := some [], error := [], history := [("cat".toList)],
        historyIndex := 0 } none =
      { dictionary := some [(("cat".toList), [])], word := ("Dog ".toList),
        result := none, error := msgNoMatch,
        history := [("cat".toList), ("dog".toList)], historyIndex := -1 } := by
  have h := claim7_no_match_still_recorded
    { dictionary := some [(("cat".toList), [])], word := ("Dog ".toList),
      result := some [], error := [], history := [("cat".toList)],
      historyIndex := 0 } none [(("cat".toList), [])] rfl (by decide) (by decide)
  rw [h]
  decide

/-!
## C1 — per-record compilation of words, gloss and synonyms
-/

/-- Folding the per-word insert over the word list of one record: at the
record's part-of-speech key, every dictionary key `k` receives exactly
one appended sense record per word whose lowercase form is `k`, in list
order; every other part of speech keeps its senses. -/
theorem foldl_insertWord_sensesAt (ws : List JStr) (posKey gloss : JStr)
    (allWords : List JStr) (d : Dict) (k p : JStr) :
    sensesAt (ws.foldl (insertWord posKey gloss allWords) d) k p =
      sensesAt d k p ++
        (if p = posKey then
          (ws.filter (fun w => jsToLower w == k)).map
            (fun w => ⟨gloss, allWords.filter (fun x => !(jsToLower x == jsToLower w))⟩)
        else []) := by
  induction ws generalizing d with
  | nil => by_cases hp : p = posKey <;> simp [hp]
  | cons w ws ih =>
    simp only [List.foldl_cons]
    rw [ih]
    unfold insertWord
    rw [sensesAt_insertSense]
    by_cases hp : p = posKey
    · subst hp
      by_cases hw : jsToLower w = k
      · rw [if_pos ⟨hw.symm, rfl⟩, if_pos rfl, if_pos rfl,
          List.filter_cons, if_pos (by simp [hw]), List.map_cons,
          List.append_assoc]
        simp
      · rw [if_neg (fun hc => hw hc.1.symm), if_pos rfl, if_pos rfl,
          List.filter_cons, if_neg (by simp [hw])]
    · rw [if_neg (fun hc => hp hc.2), if_neg hp, if_neg hp]

/-- The concrete adjective record of the claim, embedded in a full
data-file line. -/
def claim1ExLine : JStr :=
  "00001740 00 a 02 happy 0 glad 0 000 | feeling joy".toList

/-- C1: for every processed data-file line (non-empty, not indented)
whose hex word count is `n ≥ 1` and whose synset type yields a
part-of-speech key, the compiler appends — under the lowercased form of
each extracted word (underscores replaced by spaces) and that key — one
sense record whose definition is the gloss (the text after the first
`" | "`, trimmed) and whose synonyms are the other words of the record
in original casing, excluding the word itself by case-insensitive
comparison.  In particular the type-`a` record `02 happy 0 glad 0` with
gloss `feeling joy` yields `{definition: "feeling joy", synonyms:
["glad"]}` under `happy.adj` and `{definition: "feeling joy", synonyms:
["happy"]}` under `glad.adj`. -/
theorem claim1_record_compilation (d : Dict) (line : JStr) (n : Int)
    (posKey : JStr)
    (h1 : ¬(line = [] ∨ line.take 2 = [' ', ' ']))
    (hcnt : parseIntHex ((splitWs line).getD 3 []) = some n)
    (hn : 1 ≤ n)
    (hpos : posKeyOf ((splitWs line).getD 2 []) = some posKey) :
    (∀ k,
      sensesAt (processLine d line) k posKey =
        sensesAt d k posKey ++
          ((extractWords ((splitWs line).drop 4) n.toNat).filter
              (fun w => jsToLower w == k)).map
            (fun w => ⟨glossOf line,
              (extractWords ((splitWs line).drop 4) n.toNat).filter
                (fun x => !(jsToLower x == jsToLower w))⟩)) ∧
    sensesAt (processLine [] claim1ExLine) ("happy".toList) ("adj".toList) =
      [⟨("feeling joy".toList), [("glad".toList)]⟩] ∧
    sensesAt (processLine [] claim1ExLine) ("glad".toList) ("adj".toList) =
      [⟨("feeling joy".toList), [("happy".toList)]⟩] := by
  refine ⟨?_, by decide, by decide⟩
  intro k
  have hn' : ¬ n ≤ 0 := by omega
  rw [List.getD_eq_getElem?_getD] at hcnt hpos
  unfold processLine
  rw [if_neg h1]
  simp only [List.getD_eq_getElem?_getD, hcnt, hn', if_false, hpos,
    foldl_insertWord_sensesAt, if_pos rfl]
  simp

/-- Witness for C1: the general equation instantiated on the concrete
happy/glad record at key `happy`. -/
theorem claim1_witness :
    sensesAt (processLine [] claim1ExLine) ("happy".toList) ("adj".toList) =
      sensesAt ([] : Dict) ("happy".toList) ("adj".toList) ++
        ((extractWords ((splitWs claim1ExLine).drop 4) (Int.toNat 2)).filter
            (fun w => jsToLower w == ("happy".toList))).map
          (fun w => ⟨glossOf claim1ExLine,
            (extractWords ((splitWs claim1ExLine).drop 4) (Int.toNat 2)).filter
              (fun x => !(jsToLower x == jsToLower w))⟩) :=
  (claim1_record_compilation [] claim1ExLine 2 ("adj".toList)
    (by decide) (by decide) (by decide) (by decide)).1 (("happy".toList))

/-!
## C9 — missing data file: skip and continue, but no warning
-/

/-- A concrete compiler run in which the adjective data file is missing
and the other three categories are present. -/
def claim9Files : Files :=
  { noun := some ("00000001 03 n 01 entity 0 000 | that which exists".toList),
    verb := some ("00000002 29 v 01 exist 0 000 | have being".toList),
    adj := none,
    adv := some ("00000003 02 r 01 fast 0 000 | quickly".toList) }

/-- C9 counterexample: with the adjective data file missing, the whole
compiler run logs no warning at all — `parseDataFile` returns silently
on a missing file (the only missing-file `console.warn` is in the dead,
never-invoked `parseIndexFile`), contradicting the claim that a warning
is logged. -/
theorem claim9_counterexample :
    claim9Files.adj = none ∧ (buildDictionary claim9Files).2 = [] :=
  ⟨rfl, rfl⟩

/-- C9 (amended): when the data file of any category is missing, the
compiler skips that category silently — the run logs no warning — and
continues over the remaining categories in order; the dictionary built
from the other categories is exactly the one the run produces. -/
theorem claim9_missing_file_skip (fs : Files) :
    (buildDictionary fs).2 = [] ∧
    (buildDictionary { fs with noun := none }).1 =
      (parseDataFile fs.adv (parseDataFile fs.adj (parseDataFile fs.verb []).1).1).1 ∧
    (buildDictionary { fs with verb := none }).1 =
      (parseDataFile fs.adv (parseDataFile fs.adj (parseDataFile fs.noun []).1).1).1 ∧
    (buildDictionary { fs with adj := none }).1 =
      (parseDataFile fs.adv (parseDataFile fs.verb (parseDataFile fs.noun []).1).1).1 ∧
    (buildDictionary { fs with adv := none }).1 =
      (parseDataFile fs.adj (parseDataFile fs.verb (parseDataFile fs.noun []).1).1).1 := by
  have hw : ∀ (f : Option JStr) (d : Dict), (parseDataFile f d).2 = [] := by
    intro f d; cases f <;> rfl
  refine ⟨?_, rfl, rfl, rfl, rfl⟩
  unfold buildDictionary
  simp [hw]

/-!
## C6 — round-trip of synonyms into top-level keys
-/

/-- A concrete noun record whose first word is capitalized. -/
def claim6Files : Files :=
  { noun := some ("00000001 03 n 02 Earth 0 world 0 000 | the planet on which we live".toList),
    verb := none, adj := none, adv := none }

/-- C6 counterexample: synonyms keep the original casing of the source
record while top-level keys are lowercased, so `Earth` appears in the
synonyms array under `world.noun` although the compiled artifact has
only `earth` as a key: the round-trip property fails as stated. -/
theorem claim6_counterexample :
    (sensesAt (buildDictionary claim6Files).1 ("world".toList) ("noun".toList)).map
        Sense.synonyms = [[("Earth".toList)]] ∧
    ("Earth".toList) ∉ dictKeys (buildDictionary claim6Files).1 := by
  decide

/-- A sense record occurring somewhere in the dictionary object. -/
def SenseIn (d : Dict) (t : Sense) : Prop :=
  ∃ kv ∈ d, ∃ pv ∈ kv.2, t ∈ pv.2

/-- Every synonym of every stored sense record is, after lowercasing, a
top-level key. -/
def LowerClosed (d : Dict) : Prop :=
  ∀ t : Sense, SenseIn d t → ∀ syn ∈ t.synonyms, jsToLower syn ∈ dictKeys d

/-- Membership after a JS property write: an entry of the written object
was already there or is the written pair. -/
theorem mem_alSet {α : Type} (l : List (JStr × α)) (k : JStr) (v : α)
    (x : JStr × α) (hx : x ∈ alSet l k v) : x ∈ l ∨ x = (k, v) := by
  induction l with
  | nil => simpa [alSet] using hx
  | cons kv t ih =>
    unfold alSet at hx
    by_cases hk : kv.1 = k
    · rw [if_pos hk] at hx
      rcases List.mem_cons.1 hx with h | h
      · exact Or.inr h
      · exact Or.inl (List.mem_cons_of_mem _ h)
    · rw [if_neg hk] at hx
      rcases List.mem_cons.1 hx with h | h
      · exact Or.inl (h ▸ List.mem_cons_self _ _)
      · rcases ih h with h' | h'
        · exact Or.inl (List.mem_cons_of_mem _ h')
        · exact Or.inr h'

/-- A successful JS property read exhibits a member of the object. -/
theorem alGet_mem {α : Type} (l : List (JStr × α)) (k : JStr) (v : α)
    (h : alGet l k = some v) : (k, v) ∈ l := by
  induction l with
  | nil => simp [alGet] at h
  | cons kv t ih =>
    unfold alGet at h
    by_cases hk : kv.1 = k
    · rw [if_pos hk] at h
      injection h with h
      have : kv = (k, v) := by
        rcases kv with ⟨a, b⟩
        cases hk; cases h; rfl
      exact this ▸ List.mem_cons_self _ _
    · rw [if_neg hk] at h
      exact List.mem_cons_of_mem _ (ih h)

/-- A JS property write keeps every existing key. -/
theorem fst_mem_alSet {α : Type} (l : List (JStr × α)) (k : JStr) (v : α)
    (a : JStr) (ha : a ∈ l.map Prod.fst) : a ∈ (alSet l k v).map Prod.fst := by
  induction l with
  | nil => simp at ha
  | cons kv t ih =>
    unfold alSet
    by_cases hk : kv.1 = k
    · rw [if_pos hk]
      simp only [List.map_cons, List.mem_cons] at ha ⊢
      rcases ha with h | h
      · exact Or.inl (by rw [← hk, h])
      · exact Or.inr h
    · rw [if_neg hk]
      simp only [List.map_cons, List.mem_cons] at ha ⊢
      rcases ha with h | h
      · exact Or.inl h
      · exact Or.inr (ih h)

/-- A JS property write makes its own key present. -/
theorem self_fst_mem_alSet {α : Type} (l : List (JStr × α)) (k : JStr) (v : α) :
    k ∈ (alSet l k v).map Prod.fst := by
  induction l with
  | nil => exact List.mem_cons_self _ _
  | cons kv t ih =>
    unfold alSet
    by_cases hk : kv.1 = k
    · rw [if_pos hk]; exact List.mem_cons_self _ _
    · rw [if_neg hk]
      simp only [List.map_cons, List.mem_cons]
      exact Or.inr ih

/-- A sense found after `insertSense` was already stored or is the
inserted record. -/
theorem senseIn_insertSense (d : Dict) (key pos : JStr) (s : Sense) (t : Sense)
    (ht : SenseIn (insertSense d key pos s) t) : SenseIn d t ∨ t = s := by
  rcases ht with ⟨kv, hkv, pv, hpv, htm⟩
  unfold insertSense at hkv
  rcases mem_alSet _ _ _ _ hkv with hkv' | rfl
  · exact Or.inl ⟨kv, hkv', pv, hpv, htm⟩
  · simp only at hpv
    rcases mem_alSet _ _ _ _ hpv with hpv' | rfl
    · cases hE : alGet d key with
      | none => rw [hE] at hpv'; simp at hpv'
      | some e =>
        rw [hE] at hpv'
        exact Or.inl ⟨(key, e), alGet_mem _ _ _ hE, pv, by simpa using hpv', htm⟩
    · simp only at htm
      rcases List.mem_append.1 htm with hss | hs
      · cases hE : alGet d key with
        | none => rw [hE] at hss; simp [alGet] at hss
        | some e =>
          rw [hE] at hss
          simp only [Option.getD_some] at hss
          cases hS : alGet e pos with
          | none => rw [hS] at hss; simp at hss
          | some ss =>
            rw [hS] at hss
            exact Or.inl ⟨(key, e), alGet_mem _ _ _ hE,
              (pos, ss), alGet_mem _ _ _ hS, by simpa using hss⟩
      · exact Or.inr (by simpa using hs)

/-- `insertSense` keeps every existing top-level key. -/
theorem dictKeys_insertSense_mono (d : Dict) (key pos : JStr) (s : Sense)
    (a : JStr) (ha : a ∈ dictKeys d) : a ∈ dictKeys (insertSense d key pos s) :=
  fst_mem_alSet _ _ _ _ ha

/-- `insertSense` makes its own key a top-level key. -/
theorem key_mem_insertSense (d : Dict) (key pos : JStr) (s : Sense) :
    key ∈ dictKeys (insertSense d key pos s) :=
  self_fst_mem_alSet _ _ _

/-- The per-record word fold keeps every existing top-level key. -/
theorem dictKeys_foldl_insertWord_mono (ws : List JStr) (pk g : JStr)
    (allWords : List JStr) :
    ∀ (d : Dict) (a : JStr), a ∈ dictKeys d →
      a ∈ dictKeys (ws.foldl (insertWord pk g allWords) d) := by
  induction ws with
  | nil => exact fun d a ha => ha
  | cons w ws ih =>
    intro d a ha
    exact ih _ a (dictKeys_insertSense_mono _ _ _ _ a ha)

/-- After the per-record word fold, the lowercased form of every word of
the record is a top-level key. -/
theorem word_key_mem_foldl_insertWord (ws : List JStr) (pk g : JStr)
    (allWords : List JStr) :
    ∀ (d : Dict) (w : JStr), w ∈ ws →
      jsToLower w ∈ dictKeys (ws.foldl (insertWord pk g allWords) d) := by
  induction ws with
  | nil => intro d w h; cases h
  | cons w' ws ih =>
    intro d w hw
    rcases List.mem_cons.1 hw with rfl | h
    · exact dictKeys_foldl_insertWord_mono ws pk g allWords _ _
        (key_mem_insertSense _ _ _ _)
    · exact ih _ w h

/-- A sense found after the per-record word fold was already stored or
is one of the records inserted for a word of the record. -/
theorem senseIn_foldl_insertWord (ws : List JStr) (pk g : JStr)
    (allWords : List JStr) :
    ∀ (d : Dict) (t : Sense), SenseIn (ws.foldl (insertWord pk g allWords) d) t →
      SenseIn d t ∨ ∃ w ∈ ws,
        t = ⟨g, allWords.filter (fun x => !(jsToLower x == jsToLower w))⟩ := by
  induction ws with
  | nil => exact fun d t h => Or.inl h
  | cons w ws ih =>
    intro d t ht
    rcases ih _ t ht with h | ⟨w', hw', rfl⟩
    · rcases senseIn_insertSense _ _ _ _ _ h with h' | rfl
      · exact Or.inl h'
      · exact Or.inr ⟨w, List.mem_cons_self _ _, rfl⟩
    · exact Or.inr ⟨w', List.mem_cons_of_mem _ hw', rfl⟩

/-- The per-line transform either leaves the dictionary alone or is the
word fold of the extracted record, whose synonym source list is the word
list itself. -/
theorem processLine_cases (d : Dict) (line : JStr) :
    processLine d line = d ∨
    ∃ (posKey gloss : JStr) (ws : List JStr),
      processLine d line = ws.foldl (insertWord posKey gloss ws) d := by
  by_cases h1 : line = [] ∨ line.take 2 = [' ', ' ']
  · left; unfold processLine; rw [if_pos h1]
  · cases hp : parseIntHex (((splitWs line)[3]?).getD []) with
    | none => left; unfold processLine; rw [if_neg h1]; simp [hp]
    | some wcnt =>
      by_cases hw : wcnt ≤ 0
      · left; unfold processLine; rw [if_neg h1]; simp [hp, hw]
      · cases hk : posKeyOf (((splitWs line)[2]?).getD []) with
        | none => left; unfold processLine; rw [if_neg h1]; simp [hp, hw, hk]
        | some pk =>
          right
          refine ⟨pk, glossOf line,
            extractWords ((splitWs line).drop 4) wcnt.toNat, ?_⟩
          unfold processLine; rw [if_neg h1]; simp [hp, hw, hk]

/-- The per-line transform preserves the lowercased round-trip
invariant. -/
theorem lowerClosed_processLine (d : Dict) (line : JStr)
    (h : LowerClosed d) : LowerClosed (processLine d line) := by
  rcases processLine_cases d line with he | ⟨pk, g, ws, he⟩
  · rw [he]; exact h
  · rw [he]
    intro t ht syn hsyn
    rcases senseIn_foldl_insertWord ws pk g ws _ t ht with hold | ⟨w, hw, rfl⟩
    · exact dictKeys_foldl_insertWord_mono ws pk g ws _ _ (h t hold syn hsyn)
    · exact word_key_mem_foldl_insertWord ws pk g ws _ syn
        (List.mem_of_mem_filter hsyn)

/-- A whole data file preserves the lowercased round-trip invariant. -/
theorem lowerClosed_parseDataFile (f : Option JStr) (d : Dict)
    (h : LowerClosed d) : LowerClosed (parseDataFile f d).1 := by
  cases f with
  | none => exact h
  | some txt =>
    show LowerClosed ((splitLines txt).foldl processLine d)
    induction splitLines txt generalizing d with
    | nil => exact h
    | cons l ls ih => exact ih _ (lowerClosed_processLine d l h)

/-- C6 (amended): in the compiled artifact of every run, every string
appearing in a synonyms array becomes, after lowercasing, a top-level
key of the artifact.  (As stated — with the synonym's original casing —
the property fails; see the counterexample.) -/
theorem claim6_lower_roundtrip (fs : Files) (t : Sense)
    (ht : SenseIn (buildDictionary fs).1 t) :
    ∀ syn ∈ t.synonyms, jsToLower syn ∈ dictKeys (buildDictionary fs).1 := by
  have h0 : LowerClosed ([] : Dict) := by
    rintro t ⟨kv, hkv, -⟩
    cases hkv
  exact lowerClosed_parseDataFile fs.adv _
    (lowerClosed_parseDataFile fs.adj _
      (lowerClosed_parseDataFile fs.verb _
        (lowerClosed_parseDataFile fs.noun _ h0))) t ht

/-- Witness for C6's amended theorem: in the Earth/world run, the
synonym `Earth` of `world.noun` lowercases to the key `earth`. -/
theorem claim6_witness :
    ("earth".toList) ∈ dictKeys (buildDictionary claim6Files).1 := by
  have h := claim6_lower_roundtrip claim6Files
    ⟨("the planet on which we live".toList), [("Earth".toList)]⟩
    (by unfold SenseIn; decide) (("Earth".toList)) (by decide)
  simpa using h

/-!
## C10 — history entries are non-empty and trim/lowercase-normalized
-/

/-- `Char.ofNat` on a valid code point round-trips through `toNat`. -/
theorem toNat_ofNat_valid (n : Nat) (h : n.isValidChar) :
    (Char.ofNat n).toNat = n := by
  simp only [Char.ofNat, dif_pos h]
  rfl

/-- A character outside the uppercase ASCII range is kept by
`toLower`. -/
theorem toLower_eq_self (c : Char) (h : ¬(c.toNat ≥ 65 ∧ c.toNat ≤ 90)) :
    Char.toLower c = c := by
  unfold Char.toLower
  rw [if_neg h]

/-- Lowercasing twice is the same as lowercasing once. -/
theorem toLower_toLower (c : Char) :
    Char.toLower (Char.toLower c) = Char.toLower c := by
  by_cases h : c.toNat ≥ 65 ∧ c.toNat ≤ 90
  · have h1 : Char.toLower c = Char.ofNat (c.toNat + 32) := by
      unfold Char.toLower; rw [if_pos h]
    have h2 : (Char.toLower c).toNat = c.toNat + 32 := by
      rw [h1]; exact toNat_ofNat_valid _ (Or.inl (by omega))
    exact toLower_eq_self _ (by rw [h2]; omega)
  · rw [toLower_eq_self c h]
    exact toLower_eq_self c h

/-- A character whose code point is none of the four whitespace code
points is not whitespace. -/
theorem isWhitespace_eq_false (c : Char) (h32 : c.toNat ≠ 32)
    (h9 : c.toNat ≠ 9) (h13 : c.toNat ≠ 13) (h10 : c.toNat ≠ 10) :
    c.isWhitespace = false := by
  unfold Char.isWhitespace
  simp only [Bool.or_eq_false_iff, decide_eq_false_iff_not]
  refine ⟨⟨⟨?_, ?_⟩, ?_⟩, ?_⟩ <;> rintro rfl
  · exact h32 rfl
  · exact h9 rfl
  · exact h13 rfl
  · exact h10 rfl

/-- Lowercasing does not change whether a character is whitespace. -/
theorem isWhitespace_toLower (c : Char) :
    (Char.toLower c).isWhitespace = c.isWhitespace := by
  by_cases h : c.toNat ≥ 65 ∧ c.toNat ≤ 90
  · have h1 : Char.toLower c = Char.ofNat (c.toNat + 32) := by
      unfold Char.toLower; rw [if_pos h]
    have h2 : (Char.toLower c).toNat = c.toNat + 32 := by
      rw [h1]; exact toNat_ofNat_valid _ (Or.inl (by omega))
    rw [isWhitespace_eq_false _ (by omega) (by omega) (by omega) (by omega),
      isWhitespace_eq_false c (by omega) (by omega) (by omega) (by omega)]
  · rw [toLower_eq_self c h]

/-- Lowercasing a string twice is the same as lowercasing once. -/
theorem jsToLower_idem (s : JStr) : jsToLower (jsToLower s) = jsToLower s := by
  unfold jsToLower
  rw [List.map_map]
  exact List.map_congr_left (fun c _ => toLower_toLower c)

/-- Dropping whitespace commutes with lowercasing. -/
theorem dropWhile_ws_map_toLower (l : List Char) :
    (l.map Char.toLower).dropWhile Char.isWhitespace =
      (l.dropWhile Char.isWhitespace).map Char.toLower := by
  rw [List.dropWhile_map]
  congr 1
  induction l with
  | nil => rfl
  | cons c cs ih =>
    rw [List.dropWhile_cons, List.dropWhile_cons]
    simp only [Function.comp, isWhitespace_toLower]
    split
    · exact ih
    · rfl

/-- Trimming commutes with lowercasing. -/
theorem jsTrim_jsToLower (s : JStr) :
    jsTrim (jsToLower s) = jsToLower (jsTrim s) := by
  unfold jsTrim jsToLower
  rw [dropWhile_ws_map_toLower, ← List.map_reverse, dropWhile_ws_map_toLower,
    ← List.map_reverse]

/-- Dropping a prefix twice is the same as dropping it once. -/
theorem dropWhile_idem (p : Char → Bool) (l : List Char) :
    (l.dropWhile p).dropWhile p = l.dropWhile p := by
  induction l with
  | nil => rfl
  | cons c cs ih =>
    rw [List.dropWhile_cons]
    split
    · exact ih
    · next h => rw [List.dropWhile_cons, if_neg h]

/-- The head surviving `dropWhile` fails the predicate. -/
theorem head_dropWhile_not (p : Char → Bool) (l : List Char) (c : Char)
    (t : List Char) (h : l.dropWhile p = c :: t) : p c = false := by
  induction l with
  | nil => cases h
  | cons a l ih =>
    rw [List.dropWhile_cons] at h
    split at h
    · exact ih h
    · next hn =>
      cases h
      simpa using hn

/-- Right trimming produces a prefix of the list. -/
theorem reverse_dropWhile_reverse_prefix (p : Char → Bool) (l : List Char) :
    (l.reverse.dropWhile p).reverse <+: l := by
  have h1 : l.reverse.dropWhile p <:+ l.reverse := List.dropWhile_suffix p
  have h2 : (l.reverse.dropWhile p).reverse <+: l.reverse.reverse :=
    List.reverse_prefix.2 h1
  simpa using h2

/-- A string trimmed on both ends is fixed by `jsTrim`. -/
theorem trim_of_trimmed (z : JStr)
    (h1 : z.dropWhile Char.isWhitespace = z)
    (h2 : z.reverse.dropWhile Char.isWhitespace = z.reverse) :
    jsTrim z = z := by
  unfold jsTrim
  rw [h1, h2, List.reverse_reverse]

/-- Trimming twice is the same as trimming once. -/
theorem jsTrim_idem (s : JStr) : jsTrim (jsTrim s) = jsTrim s := by
  apply trim_of_trimmed
  · cases hzz : jsTrim s with
    | nil => rfl
    | cons c t =>
      have hpre : jsTrim s <+: s.dropWhile Char.isWhitespace :=
        reverse_dropWhile_reverse_prefix _ _
      rw [hzz] at hpre
      rcases hpre with ⟨r, hr⟩
      have hc : Char.isWhitespace c = false := by
        refine head_dropWhile_not Char.isWhitespace s c (t ++ r) ?_
        rw [← hr]
        rfl
      rw [List.dropWhile_cons, if_neg (by simp [hc])]
  · show ((s.dropWhile Char.isWhitespace).reverse.dropWhile
        Char.isWhitespace).reverse.reverse.dropWhile Char.isWhitespace =
      ((s.dropWhile Char.isWhitespace).reverse.dropWhile
        Char.isWhitespace).reverse.reverse
    rw [List.reverse_reverse]
    exact dropWhile_idem _ _

/-- `trim` then `toLowerCase` is an idempotent normalization. -/
theorem jsNormalize_idem (s : JStr) :
    jsToLower (jsTrim (jsToLower (jsTrim s))) = jsToLower (jsTrim s) := by
  rw [jsTrim_jsToLower, jsTrim_idem]
  exact jsToLower_idem _

/-- Every history entry is a non-empty string equal to its own
trimmed-and-lowercased form. -/
def NormalizedHistory (h : List JStr) : Prop :=
  ∀ t ∈ h, t ≠ [] ∧ jsToLower (jsTrim t) = t

/-- Entries of a pushed history come from the old history or are the
pushed term. -/
theorem mem_pushList (h : List JStr) (term t : JStr) (ht : t ∈ pushList h term) :
    t ∈ h ∨ t = term := by
  unfold pushList at ht
  split at ht
  · replace ht : t ∈ (if 100 < (h ++ [term]).length
        then List.drop 1 (h ++ [term]) else h ++ [term]) := ht
    split at ht
    · have h2 := List.mem_of_mem_drop ht
      rcases List.mem_append.1 h2 with h3 | h3
      · exact Or.inl h3
      · exact Or.inr (by simpa using h3)
    · rcases List.mem_append.1 ht with h3 | h3
      · exact Or.inl h3
      · exact Or.inr (by simpa using h3)
  · exact Or.inl ht

/-- `doSearch` preserves the history normalization invariant. -/
theorem normalized_doSearch (st : ClientState) (wArg : Option JStr)
    (h : NormalizedHistory st.history) :
    NormalizedHistory (doSearch st wArg).history := by
  by_cases h1 : jsToLower (jsTrim (wArg.getD st.word)) = []
  · unfold doSearch
    simpa [h1] using h
  · cases hd : st.dictionary with
    | none => unfold doSearch; simpa [h1, hd] using h
    | some d =>
      rw [doSearch_history st wArg d hd h1]
      unfold NormalizedHistory
      intro t htm
      rcases mem_pushList _ _ _ htm with hin | rfl
      · exact h t hin
      · exact ⟨h1, jsNormalize_idem _⟩

/-- C10: the empty initial history is normalized, and every operation
that can write to the history — a submitted search (match or no-match
alike) and a synonym click — preserves the invariant that every stored
entry is a non-empty string equal to its own trimmed, lowercased form:
terms are trimmed and lowercased before the push and empty terms are
rejected before reaching the history. -/
theorem claim10_normalized_invariant (st : ClientState)
    (h : NormalizedHistory st.history) :
    NormalizedHistory [] ∧
    (∀ wArg, NormalizedHistory (doSearch st wArg).history) ∧
    (∀ syn, NormalizedHistory (onClickSynonym st syn).history) := by
  refine ⟨fun t ht => absurd ht (List.not_mem_nil t), ?_, ?_⟩
  · exact fun wArg => normalized_doSearch st wArg h
  · intro syn
    unfold onClickSynonym
    exact normalized_doSearch { st with word := syn } (some syn) h

/-- Witness for C10: after a no-match search and a synonym click on a
concrete state, the history still satisfies the invariant. -/
theorem claim10_witness :
    NormalizedHistory (doSearch
      { dictionary := some [], word := (" Mixed Case ".toList), result := none,
        error := [], history := [("cat".toList)], historyIndex := -1 }
      none).history :=
  (claim10_normalized_invariant
    { dictionary := some [], word := (" Mixed Case ".toList), result := none,
      error := [], history := [("cat".toList)], historyIndex := -1 }
    (by unfold NormalizedHistory; decide)).2.1 none
